import Mathlib

/-!
Verification of the in-memory search core of the Swiss-register single-file
application (`src/swiss_register_remote_data_version_react_single_file.jsx`).

The core consists of
* the inline tokenizer used by `buildIndex`
  (`(row?.[f] ?? "").toString().toLowerCase()` followed by
  `.split(/[^\p{L}\p{N}]+/u).filter(Boolean)`),
* `buildIndex(rows)`, building a `Map` from token to `Set` of record
  positions, and
* `queryIndex(query, rows, idx)`, resolving a free-text query.

Embedding conventions:
* JavaScript strings are Lean `String`s, processed as their `List Char` of
  code points.
* The character class `\p{L}\p{N}` of the split regex and the class `\s`
  of the query split are modelled on the ASCII fragment (Latin letters,
  digits, and the ASCII whitespace characters), where the JavaScript
  predicates coincide with the numeric ranges used below.  All concrete
  inputs considered in this development are ASCII.
* `String.prototype.toLowerCase` is modelled by `Char.toLower`, whose Lean
  definition (map `A`-`Z` to `a`-`z`, leave everything else) is the ASCII
  fragment of the JavaScript function.
* A JavaScript `Map` is modelled as an association list in key insertion
  order (`idxAdd` updates the first matching key in place and appends new
  keys at the end, `idxGet` reads the first matching key), and a JavaScript
  `Set` as a duplicate-free list in insertion order (`setAdd` appends an
  element only if it is absent); both match the iteration-order semantics
  of the JavaScript collections.
* Splitting a string at every separator character and then discarding
  empty segments yields the same list as splitting at maximal separator
  runs and discarding empty segments, which is what
  `split(regex).filter(Boolean)` computes; `splitP` performs the
  char-by-char split and the `filter` keeps the nonempty segments.
-/

namespace SwissRegister

/-- The character class `\p{L}\p{N}` of the build-time split regex, on the
ASCII fragment: Latin letters and digits. -/
def isTokenChar (c : Char) : Bool :=
  decide ((97 ≤ c.toNat ∧ c.toNat ≤ 122) ∨ (65 ≤ c.toNat ∧ c.toNat ≤ 90) ∨
    (48 ≤ c.toNat ∧ c.toNat ≤ 57))

/-- The character class `\s` of the query split regex, on the ASCII
fragment: space, tab, line feed, vertical tab, form feed, carriage
return. -/
def isSpaceChar (c : Char) : Bool :=
  decide (c.toNat = 32 ∨ c.toNat = 9 ∨ c.toNat = 10 ∨ c.toNat = 11 ∨
    c.toNat = 12 ∨ c.toNat = 13)

/-- One step of `String.prototype.split` at every character that is not
kept by `p` (the segments between separator characters, empty segments
included).  `acc` holds the current segment in reverse. -/
def splitP (p : Char → Bool) : List Char → List Char → List (List Char)
  | acc, [] => [acc.reverse]
  | acc, c :: cs =>
    if p c then splitP p (c :: acc) cs else acc.reverse :: splitP p [] cs

/-- The segments of the split that survive `filter(Boolean)`: splitting at
maximal separator runs and discarding empty segments. -/
def tokensP (p : Char → Bool) (l : List Char) : List (List Char) :=
  (splitP p [] l).filter (fun t => !t.isEmpty)

/-- `String.prototype.trim` on the character list: remove whitespace from
both ends. -/
def trimChars (l : List Char) : List Char :=
  ((l.dropWhile isSpaceChar).reverse.dropWhile isSpaceChar).reverse

/-- JavaScript `tokens.join(" ")` on character lists. -/
def joinSpaceChars : List (List Char) → List Char
  | [] => []
  | [t] => t
  | t :: ts => t ++ ' ' :: joinSpaceChars ts

/-- A record of the canonical schema (`Company` in the source).  Only
`name`, `city` and `type` are in the Indexed Field Set; `address` is
carried to show that it never influences the index.  A field holds
`none` when absent on the record (`row?.[f]` yields `undefined`, turned
into `""` by `?? ""`).  The `id` field and the open attribute bag of the
source records are never read by the core and are omitted. -/
structure Company where
  name : Option String
  city : Option String
  type : Option String
  address : Option String
  deriving DecidableEq, Inhabited

/-- Field access `row?.[f]` for the canonical field names. -/
def getField (r : Company) : String → Option String
  | "name" => r.name
  | "city" => r.city
  | "type" => r.type
  | "address" => r.address
  | _ => none

/-- The Indexed Field Set: `const fields = ["name", "city", "type"]`. -/
def indexedFields : List String := ["name", "city", "type"]

/-- `(row?.[f] ?? "").toString()`. -/
def fieldText (r : Company) (f : String) : String := (getField r f).getD ""

/-- The build-time tokenizer:
`v.toLowerCase().split(/[^\p{L}\p{N}]+/u).filter(Boolean)`. -/
def tokenize (s : String) : List String :=
  (tokensP isTokenChar (s.data.map Char.toLower)).map (fun t => String.mk t)

/-- The inverted index: a JavaScript `Map` from token to `Set` of record
positions, as an insertion-ordered association list of insertion-ordered
duplicate-free position lists. -/
abbrev Index := List (String × List Nat)

/-- `idx.get(tok)` (`undefined` becomes `none`). -/
def idxGet (idx : Index) (t : String) : Option (List Nat) :=
  (idx.find? (fun p => p.1 == t)).map (fun p => p.2)

/-- `Set.prototype.add`: append the element if it is not present. -/
def setAdd (s : List Nat) (i : Nat) : List Nat :=
  if i ∈ s then s else s ++ [i]

/-- `if (!idx.has(tok)) idx.set(tok, new Set()); idx.get(tok).add(i)`:
update the entry of `tok` in place, or append a new entry at the end. -/
def idxAdd : Index → String → Nat → Index
  | [], t, i => [(t, [i])]
  | (k, v) :: rest, t, i =>
    if k = t then (k, setAdd v i) :: rest else (k, v) :: idxAdd rest t i

/-- The body of `rows.forEach((row, i) => ...)` in `buildIndex`: tokenize
each indexed field of `row` and add position `i` under each token. -/
def addRow (idx : Index) (i : Nat) (r : Company) : Index :=
  indexedFields.foldl
    (fun a f => (tokenize (fieldText r f)).foldl (fun a2 tok => idxAdd a2 tok i) a)
    idx

/-- `rows.forEach((row, i) => ...)` with the position counter made
explicit. -/
def buildFrom : Nat → List Company → Index → Index
  | _, [], idx => idx
  | i, r :: rs, idx => buildFrom (i + 1) rs (addRow idx i r)

/-- `buildIndex(rows)` of the source. -/
def buildIndex (rows : List Company) : Index := buildFrom 0 rows []

/-- `q.split(/\s+/)` restricted to its nonempty segments (for the trimmed
nonempty `q` on which the source uses it, the JavaScript split produces no
empty segments, so the two agree on every reachable input). -/
def wsTokens (l : List Char) : List (List Char) :=
  tokensP (fun c => !isSpaceChar c) l

/-- The token list used by query resolution:
`query.trim().toLowerCase().split(/\s+/)`. -/
def queryTokens (query : String) : List String :=
  (wsTokens ((trimChars query.data).map Char.toLower)).map (fun t => String.mk t)

/-- `[...current].filter((x) => set.has(x))`: intersection preserving the
order of the first operand. -/
def interList (a b : List Nat) : List Nat := a.filter (fun x => b.contains x)

/-- The query loop of `queryIndex` after the first token: `current` is the
running intersection; a missing token or an empty intersection returns the
empty result. -/
def resolveRest (idx : Index) : List Nat → List String → List Nat
  | cur, [] => cur
  | cur, t :: ts =>
    match idxGet idx t with
    | none => []
    | some s =>
      let c := interList cur s
      if c.isEmpty then [] else resolveRest idx c ts

/-- The whole query loop of `queryIndex`: the first token seeds `current`
with a copy of its position set (`new Set(set)`), the rest intersect.  On
the empty token list the loop leaves `current = null`, which the source
never consumes (the empty-token case returns earlier); that unreachable
case is mapped to the empty result. -/
def resolveAll (idx : Index) : List String → List Nat
  | [] => []
  | t :: ts =>
    match idxGet idx t with
    | none => []
    | some s => if s.isEmpty then [] else resolveRest idx s ts

/-- `queryIndex(query, rows, idx)` of the source: trim and lower-case the
query; if it is empty return all rows; otherwise resolve the
whitespace-separated tokens conjunctively and return the first 1000
matches as records (`[...current].slice(0, 1000).map((i) => rows[i])`). -/
def queryIndex (query : String) (rows : List Company) (idx : Index) : List Company :=
  if ((trimChars query.data).map Char.toLower).isEmpty then rows
  else ((resolveAll idx (queryTokens query)).take 1000).map
    (fun i => rows.getD i default)

/-- All tokens of the indexed fields of one record. -/
def recordTokens (r : Company) : List String :=
  (indexedFields.map (fun f => tokenize (fieldText r f))).flatten

/-- Token `t` is a key of the index and position `i` is in its set. -/
def memIdx (idx : Index) (t : String) (i : Nat) : Prop :=
  ∃ s, idxGet idx t = some s ∧ i ∈ s

/-- Position `i` is in the position set of every token of `toks`. -/
def posMatches (idx : Index) (toks : List String) (i : Nat) : Bool :=
  toks.all (fun t =>
    match idxGet idx t with
    | none => false
    | some s => s.contains i)

/-- Build invariant: every position set of the index is strictly
increasing, nonempty, and bounded by `bound`. -/
def IdxOK (bound : Nat) (idx : Index) : Prop :=
  ∀ p ∈ idx, p.2.Pairwise (· < ·) ∧ p.2 ≠ [] ∧ ∀ x ∈ p.2, x < bound

/-- JavaScript `tokens.join(" ")`. -/
def joinSpace (ts : List String) : String :=
  String.mk (joinSpaceChars (ts.map String.data))

/-- First example record of the specification. -/
def exR0 : Company := ⟨some "Alpine Watch AG", some "Zurich", none, none⟩

/-- Second example record of the specification. -/
def exR1 : Company := ⟨some "Geneva Trading SA", some "Geneva", none, none⟩

/-- Third example record of the specification. -/
def exR2 : Company := ⟨some "Alpine Textiles", some "Basel", none, none⟩

/-- The example record collection of the specification. -/
def exRows : List Company := [exR0, exR1, exR2]

/-- One record whose address field holds text that appears in no indexed
field. -/
def adR : Company := ⟨some "Alpine Watch", none, none, some "Bahnhofstrasse 1"⟩

/-- Record collection for the claim C7 witness. -/
def adRows : List Company := [adR]

/-- A Token in the sense of the data model: a nonempty run of
alphanumeric characters. -/
def IsTok (t : String) : Prop :=
  t.data ≠ [] ∧ ∀ c ∈ t.data, isTokenChar c = true

/-- Record repeated a thousand times in the claim C6 counterexample. -/
def cxA : Company := ⟨some "aaa", none, none, none⟩

/-- The record at position 1000 in the claim C6 counterexample. -/
def cxB : Company := ⟨some "aaa", some "bbb", none, none⟩

/-- One thousand and one records: positions 0 to 999 hold `cxA`, position
1000 holds `cxB`.  Every record matches the token `aaa`; only the last one
also matches `bbb`. -/
def cxRows : List Company := List.replicate 1000 cxA ++ [cxB]

theorem isTokenChar_iff {c : Char} :
    isTokenChar c = true ↔
      ((97 ≤ c.toNat ∧ c.toNat ≤ 122) ∨ (65 ≤ c.toNat ∧ c.toNat ≤ 90) ∨
        (48 ≤ c.toNat ∧ c.toNat ≤ 57)) :=
  decide_eq_true_iff

theorem isSpaceChar_iff {c : Char} :
    isSpaceChar c = true ↔
      (c.toNat = 32 ∨ c.toNat = 9 ∨ c.toNat = 10 ∨ c.toNat = 11 ∨
        c.toNat = 12 ∨ c.toNat = 13) :=
  decide_eq_true_iff

theorem not_isSpaceChar_of_isTokenChar {c : Char} (h : isTokenChar c = true) :
    isSpaceChar c = false := by
  rw [isTokenChar_iff] at h
  rw [← Bool.not_eq_true, isSpaceChar_iff]
  omega

theorem toNat_ofNat_valid {n : Nat} (h : n.isValidChar) :
    (Char.ofNat n).toNat = n := by
  rw [Char.ofNat, dif_pos h]
  rfl

/-- Numeric characterisation of `Char.toLower`. -/
theorem toLower_toNat (c : Char) :
    (Char.toLower c).toNat =
      if 65 ≤ c.toNat ∧ c.toNat ≤ 90 then c.toNat + 32 else c.toNat := by
  unfold Char.toLower
  split
  · next h =>
    rw [if_pos (by omega)]
    exact toNat_ofNat_valid (Or.inl (by omega))
  · next h =>
    rw [if_neg (by omega)]

theorem toLower_eq_self {c : Char} (h : ¬(65 ≤ c.toNat ∧ c.toNat ≤ 90)) :
    Char.toLower c = c := by
  unfold Char.toLower
  exact if_neg (by omega)

/-- `toLowerCase` is idempotent (ASCII fragment). -/
theorem toLower_toLower (c : Char) :
    Char.toLower (Char.toLower c) = Char.toLower c := by
  by_cases h : 65 ≤ c.toNat ∧ c.toNat ≤ 90
  · apply toLower_eq_self
    rw [toLower_toNat, if_pos h]
    omega
  · rw [toLower_eq_self h]
    exact toLower_eq_self h

/-- Lower-casing does not change whether a character is whitespace. -/
theorem isSpaceChar_toLower (c : Char) :
    isSpaceChar (Char.toLower c) = isSpaceChar c := by
  have h := toLower_toNat c
  by_cases hc : 65 ≤ c.toNat ∧ c.toNat ≤ 90
  · rw [if_pos hc] at h
    have h1 : isSpaceChar (Char.toLower c) = false := by
      rw [← Bool.not_eq_true, isSpaceChar_iff]
      omega
    have h2 : isSpaceChar c = false := by
      rw [← Bool.not_eq_true, isSpaceChar_iff]
      omega
    rw [h1, h2]
  · rw [toLower_eq_self hc]

/-- Lower-casing does not change whether a character is in the token
class. -/
theorem isTokenChar_toLower (c : Char) :
    isTokenChar (Char.toLower c) = isTokenChar c := by
  have h := toLower_toNat c
  by_cases hc : 65 ≤ c.toNat ∧ c.toNat ≤ 90
  · rw [if_pos hc] at h
    have h1 : isTokenChar (Char.toLower c) = true := by
      rw [isTokenChar_iff]
      omega
    have h2 : isTokenChar c = true := by
      rw [isTokenChar_iff]
      omega
    rw [h1, h2]
  · rw [toLower_eq_self hc]

theorem splitP_eq (p : Char → Bool) (acc l) :
    splitP p acc l = (acc.reverse ++ l.takeWhile p) ::
      (match l.dropWhile p with
       | [] => []
       | _ :: rest => splitP p [] rest) := by
  induction l generalizing acc with
  | nil => simp [splitP]
  | cons c cs ih =>
    by_cases h : p c
    · rw [splitP, if_pos h, ih (c :: acc), List.takeWhile_cons_of_pos h,
        List.dropWhile_cons_of_pos h]
      simp
    · rw [splitP, if_neg h, List.takeWhile_cons_of_neg h,
        List.dropWhile_cons_of_neg h]
      simp

theorem tokensP_nil (p : Char → Bool) : tokensP p [] = [] := rfl

theorem tokensP_cons_neg {p : Char → Bool} {c : Char} (h : p c = false)
    (l : List Char) : tokensP p (c :: l) = tokensP p l := by
  unfold tokensP
  rw [splitP, if_neg (by simp [h])]
  simp [List.filter_cons]

theorem tokensP_cons_pos {p : Char → Bool} {c : Char} (h : p c = true)
    (l : List Char) :
    tokensP p (c :: l) = (c :: l.takeWhile p) :: tokensP p (l.dropWhile p) := by
  have key : tokensP p (c :: l) = (c :: l.takeWhile p) ::
      List.filter (fun t => !t.isEmpty)
        (match l.dropWhile p with
         | [] => []
         | _ :: rest => splitP p [] rest) := by
    unfold tokensP
    rw [splitP, if_pos h, splitP_eq]
    simp [List.filter_cons]
  rw [key]
  congr 1
  cases hdw : l.dropWhile p with
  | nil => rfl
  | cons d rest =>
    have hd : p d = false := by
      have h0 := List.head?_dropWhile_not p l
      rw [hdw] at h0
      simpa using h0
    show List.filter (fun t => !t.isEmpty) (splitP p [] rest) = tokensP p (d :: rest)
    rw [tokensP_cons_neg hd rest]
    rfl

/-- Splitting ignores characters past the input. -/
theorem tokensP_all_sep {p : Char → Bool} :
    ∀ l : List Char, (∀ c ∈ l, p c = false) → tokensP p l = [] := by
  intro l
  induction l with
  | nil => intro _; rfl
  | cons c cs ih =>
    intro h
    rw [tokensP_cons_neg (h c (by simp))]
    exact ih (fun d hd => h d (by simp [hd]))

theorem tokensP_ne_nil {p : Char → Bool} :
    ∀ l : List Char, (∃ c ∈ l, p c = true) → tokensP p l ≠ [] := by
  intro l
  induction l with
  | nil => rintro ⟨c, hc, _⟩; cases hc
  | cons c cs ih =>
    rintro ⟨d, hd, hpd⟩
    by_cases hc : p c
    · rw [tokensP_cons_pos hc]
      simp
    · rw [tokensP_cons_neg (by simpa using hc)]
      apply ih
      rcases List.mem_cons.mp hd with rfl | hd
      · exact absurd hpd (by simpa using hc)
      · exact ⟨d, hd, hpd⟩

theorem takeWhile_congrP {p q : Char → Bool} :
    ∀ l : List Char, (∀ c ∈ l, p c = q c) → l.takeWhile p = l.takeWhile q := by
  intro l
  induction l with
  | nil => intro _; rfl
  | cons c cs ih =>
    intro h
    have hc := h c (by simp)
    by_cases hp : p c
    · rw [List.takeWhile_cons_of_pos hp,
        List.takeWhile_cons_of_pos (show q c by rw [← hc]; exact hp),
        ih (fun d hd => h d (by simp [hd]))]
    · rw [List.takeWhile_cons_of_neg hp,
        List.takeWhile_cons_of_neg (show ¬(q c = true) by rw [← hc]; exact hp)]

theorem dropWhile_congrP {p q : Char → Bool} :
    ∀ l : List Char, (∀ c ∈ l, p c = q c) → l.dropWhile p = l.dropWhile q := by
  intro l
  induction l with
  | nil => intro _; rfl
  | cons c cs ih =>
    intro h
    have hc := h c (by simp)
    by_cases hp : p c
    · rw [List.dropWhile_cons_of_pos hp,
        List.dropWhile_cons_of_pos (show q c by rw [← hc]; exact hp),
        ih (fun d hd => h d (by simp [hd]))]
    · rw [List.dropWhile_cons_of_neg hp,
        List.dropWhile_cons_of_neg (show ¬(q c = true) by rw [← hc]; exact hp)]

theorem tokensP_congr {p q : Char → Bool} :
    ∀ (n : Nat) (l : List Char), l.length ≤ n → (∀ c ∈ l, p c = q c) →
      tokensP p l = tokensP q l := by
  intro n
  induction n with
  | zero =>
    intro l hl _
    have : l = [] := List.eq_nil_of_length_eq_zero (Nat.le_zero.mp hl)
    subst this
    rfl
  | succ n ih =>
    intro l hl hpq
    match l with
    | [] => rfl
    | c :: cs =>
      have hc : p c = q c := hpq c (by simp)
      by_cases h : p c
      · have hq : q c = true := by rw [← hc]; exact h
        rw [tokensP_cons_pos h, tokensP_cons_pos hq]
        have htw : cs.takeWhile p = cs.takeWhile q :=
          takeWhile_congrP cs (fun d hd => hpq d (by simp [hd]))
        have hdw : cs.dropWhile p = cs.dropWhile q :=
          dropWhile_congrP cs (fun d hd => hpq d (by simp [hd]))
        rw [htw, hdw]
        congr 1
        apply ih
        · have h1 : (cs.dropWhile q).length ≤ cs.length :=
            (List.dropWhile_sublist q).length_le
          simpa using Nat.le_trans h1 (Nat.le_of_succ_le_succ hl)
        · intro d hd
          exact hpq d (by simp [(List.dropWhile_sublist q).mem hd])
      · have hq : q c = false := by rw [← hc]; simpa using h
        rw [tokensP_cons_neg (by simpa using h), tokensP_cons_neg hq]
        apply ih
        · simpa using Nat.le_of_succ_le_succ hl
        · intro d hd
          exact hpq d (by simp [hd])

theorem sep_takeWhile_append {p : Char → Bool} {d : Char} (hd : p d = false) :
    ∀ (l r : List Char), (l ++ d :: r).takeWhile p = l.takeWhile p := by
  intro l r
  induction l with
  | nil => simp [List.takeWhile_cons, hd]
  | cons c cs ih =>
    by_cases hc : p c
    · rw [List.cons_append, List.takeWhile_cons_of_pos hc,
        List.takeWhile_cons_of_pos hc, ih]
    · rw [List.cons_append, List.takeWhile_cons_of_neg hc,
        List.takeWhile_cons_of_neg hc]

theorem sep_dropWhile_append {p : Char → Bool} {d : Char} (hd : p d = false) :
    ∀ (l r : List Char), (l ++ d :: r).dropWhile p = l.dropWhile p ++ d :: r := by
  intro l r
  induction l with
  | nil => simp [List.dropWhile_cons, hd]
  | cons c cs ih =>
    by_cases hc : p c
    · rw [List.cons_append, List.dropWhile_cons_of_pos hc,
        List.dropWhile_cons_of_pos hc, ih]
    · rw [List.cons_append, List.dropWhile_cons_of_neg hc,
        List.dropWhile_cons_of_neg hc, List.cons_append]

theorem tokensP_append_sep_aux {p : Char → Bool} {d : Char} (hd : p d = false) :
    ∀ (n : Nat) (l r : List Char), l.length ≤ n →
      tokensP p (l ++ d :: r) = tokensP p l ++ tokensP p r := by
  intro n
  induction n with
  | zero =>
    intro l r hl
    have hnil : l = [] := List.eq_nil_of_length_eq_zero (Nat.le_zero.mp hl)
    subst hnil
    rw [List.nil_append, tokensP_cons_neg hd, tokensP_nil, List.nil_append]
  | succ n ih =>
    intro l r hl
    match l with
    | [] => rw [List.nil_append, tokensP_cons_neg hd, tokensP_nil, List.nil_append]
    | c :: cs =>
      by_cases hc : p c
      · rw [List.cons_append, tokensP_cons_pos hc, tokensP_cons_pos hc,
          sep_takeWhile_append hd, sep_dropWhile_append hd, List.cons_append]
        congr 1
        apply ih
        exact Nat.le_trans (List.dropWhile_sublist p).length_le
          (Nat.le_of_succ_le_succ hl)
      · rw [List.cons_append, tokensP_cons_neg (by simpa using hc),
          tokensP_cons_neg (by simpa using hc)]
        exact ih cs r (by simpa using Nat.le_of_succ_le_succ hl)

/-- Splitting distributes over concatenation through a separator
character. -/
theorem tokensP_append_sep {p : Char → Bool} {d : Char} (hd : p d = false)
    (l r : List Char) : tokensP p (l ++ d :: r) = tokensP p l ++ tokensP p r :=
  tokensP_append_sep_aux hd l.length l r Nat.le.refl

/-- A suffix of separator characters does not change the split. -/
theorem tokensP_append_all_sep {p : Char → Bool} (l s : List Char)
    (hs : ∀ c ∈ s, p c = false) : tokensP p (l ++ s) = tokensP p l := by
  cases s with
  | nil => rw [List.append_nil]
  | cons d rest =>
    rw [tokensP_append_sep (hs d (by simp)) l rest,
      tokensP_all_sep rest (fun c hc => hs c (by simp [hc])), List.append_nil]

/-- A nonempty all-token-character list is its own single token. -/
theorem tokensP_of_all_pos {p : Char → Bool} :
    ∀ l : List Char, l ≠ [] → (∀ c ∈ l, p c = true) → tokensP p l = [l] := by
  intro l hne hall
  match l with
  | c :: cs =>
    rw [tokensP_cons_pos (hall c (by simp))]
    have h1 : cs.takeWhile p = cs := by
      have h := @List.takeWhile_append_of_pos Char p cs []
        (fun a ha => hall a (by simp [ha]))
      simpa using h
    have h2 : cs.dropWhile p = [] := by
      have h := @List.dropWhile_append_of_pos Char p cs []
        (fun a ha => hall a (by simp [ha]))
      simpa using h
    rw [h1, h2, tokensP_nil]

theorem tokensP_mem_aux {p : Char → Bool} :
    ∀ (n : Nat) (l t : List Char), l.length ≤ n → t ∈ tokensP p l →
      t ≠ [] ∧ ∀ c ∈ t, p c = true ∧ c ∈ l := by
  intro n
  induction n with
  | zero =>
    intro l t hl ht
    have hnil : l = [] := List.eq_nil_of_length_eq_zero (Nat.le_zero.mp hl)
    subst hnil
    rw [tokensP_nil] at ht
    cases ht
  | succ n ih =>
    intro l t hl ht
    match l with
    | [] =>
      rw [tokensP_nil] at ht
      cases ht
    | c :: cs =>
      by_cases hc : p c
      · rw [tokensP_cons_pos hc] at ht
        rcases List.mem_cons.mp ht with rfl | ht
        · refine ⟨by simp, ?_⟩
          intro x hx
          rcases List.mem_cons.mp hx with rfl | hx
          · exact ⟨hc, by simp⟩
          · exact ⟨List.mem_takeWhile_imp hx,
              by simp [(List.takeWhile_sublist p).subset hx]⟩
        · have hrec := ih (cs.dropWhile p) t
            (Nat.le_trans (List.dropWhile_sublist p).length_le
              (Nat.le_of_succ_le_succ hl)) ht
          refine ⟨hrec.1, ?_⟩
          intro x hx
          exact ⟨(hrec.2 x hx).1,
            by simp [(List.dropWhile_sublist p).subset (hrec.2 x hx).2]⟩
      · rw [tokensP_cons_neg (by simpa using hc)] at ht
        have hrec := ih cs t (by simpa using Nat.le_of_succ_le_succ hl) ht
        refine ⟨hrec.1, ?_⟩
        intro x hx
        exact ⟨(hrec.2 x hx).1, by simp [(hrec.2 x hx).2]⟩

/-- Every split segment is nonempty, consists of kept characters, and its
characters come from the input. -/
theorem tokensP_mem {p : Char → Bool} {l t : List Char} (ht : t ∈ tokensP p l) :
    t ≠ [] ∧ ∀ c ∈ t, p c = true ∧ c ∈ l :=
  tokensP_mem_aux l.length l t Nat.le.refl ht

theorem tokensP_dropWhile_space :
    ∀ l : List Char, tokensP (fun c => !isSpaceChar c) (l.dropWhile isSpaceChar) =
      tokensP (fun c => !isSpaceChar c) l := by
  intro l
  induction l with
  | nil => rfl
  | cons c cs ih =>
    by_cases hc : isSpaceChar c = true
    · rw [List.dropWhile_cons_of_pos hc, ih,
        tokensP_cons_neg (show (!isSpaceChar c) = false by simp [hc])]
    · rw [List.dropWhile_cons_of_neg hc]

/-- Trimming whitespace from both ends does not change the
whitespace-split tokens. -/
theorem tokensP_trimChars (l : List Char) :
    tokensP (fun c => !isSpaceChar c) (trimChars l) =
      tokensP (fun c => !isSpaceChar c) l := by
  unfold trimChars
  rw [← tokensP_dropWhile_space l]
  generalize l.dropWhile isSpaceChar = m
  conv_rhs => rw [← List.reverse_reverse m,
    ← List.takeWhile_append_dropWhile isSpaceChar m.reverse, List.reverse_append]
  rw [tokensP_append_all_sep]
  intro c hc
  rw [List.mem_reverse] at hc
  simp [List.mem_takeWhile_imp hc]

/-- Splitting the space-join of nonempty all-kept segments recovers the
segments. -/
theorem tokensP_joinSpace {p : Char → Bool} (hsp : p ' ' = false) :
    ∀ ts : List (List Char), (∀ t ∈ ts, t ≠ [] ∧ ∀ c ∈ t, p c = true) →
      tokensP p (joinSpaceChars ts) = ts := by
  intro ts
  induction ts with
  | nil => intro _; rfl
  | cons t ts ih =>
    intro h
    cases ts with
    | nil =>
      show tokensP p t = [t]
      exact tokensP_of_all_pos t (h t (by simp)).1 (fun c hc => (h t (by simp)).2 c hc)
    | cons t2 rest =>
      show tokensP p (t ++ ' ' :: joinSpaceChars (t2 :: rest)) = t :: t2 :: rest
      rw [tokensP_append_sep hsp,
        tokensP_of_all_pos t (h t (by simp)).1 (fun c hc => (h t (by simp)).2 c hc),
        ih (fun u hu => h u (by simp [hu]))]
      rfl

theorem mem_setAdd {s : List Nat} {i j : Nat} :
    j ∈ setAdd s i ↔ j ∈ s ∨ j = i := by
  unfold setAdd
  by_cases h : i ∈ s
  · rw [if_pos h]
    constructor
    · exact fun hj => Or.inl hj
    · rintro (hj | rfl)
      · exact hj
      · exact h
  · rw [if_neg h]
    simp

theorem idxGet_cons_self {k : String} {v : List Nat} {rest : Index} :
    idxGet ((k, v) :: rest) k = some v := by
  simp [idxGet]

theorem idxGet_cons_ne {k t : String} {v : List Nat} {rest : Index}
    (h : k ≠ t) : idxGet ((k, v) :: rest) t = idxGet rest t := by
  simp [idxGet, h]

theorem idxGet_idxAdd (idx : Index) (t : String) (i : Nat) (t2 : String) :
    idxGet (idxAdd idx t i) t2 =
      if t2 = t then
        match idxGet idx t with
        | none => some [i]
        | some s => some (setAdd s i)
      else idxGet idx t2 := by
  induction idx with
  | nil =>
    by_cases h : t2 = t
    · subst h
      simp [idxAdd, idxGet]
    · have h2 : t ≠ t2 := fun hh => h hh.symm
      rw [if_neg h]
      show idxGet [(t, [i])] t2 = idxGet [] t2
      rw [idxGet_cons_ne h2]
  | cons kv rest ih =>
    obtain ⟨k, v⟩ := kv
    show idxGet (if k = t then (k, setAdd v i) :: rest
        else (k, v) :: idxAdd rest t i) t2 = _
    by_cases hk : k = t
    · subst hk
      rw [if_pos rfl]
      by_cases h2 : t2 = k
      · subst h2
        rw [if_pos rfl, idxGet_cons_self, idxGet_cons_self]
      · rw [if_neg h2, idxGet_cons_ne (fun h => h2 h.symm),
          idxGet_cons_ne (fun h => h2 h.symm)]
    · rw [if_neg hk]
      by_cases h2 : t2 = k
      · subst h2
        rw [if_neg hk, idxGet_cons_self, idxGet_cons_self]
      · rw [idxGet_cons_ne (fun h => h2 h.symm), ih]
        by_cases h3 : t2 = t
        · rw [if_pos h3, if_pos h3, idxGet_cons_ne hk]
        · rw [if_neg h3, if_neg h3, idxGet_cons_ne (fun h => h2 h.symm)]

theorem memIdx_idxAdd {idx : Index} {t : String} {i : Nat} {t2 : String}
    {i2 : Nat} :
    memIdx (idxAdd idx t i) t2 i2 ↔ (t2 = t ∧ i2 = i) ∨ memIdx idx t2 i2 := by
  unfold memIdx
  rw [idxGet_idxAdd]
  by_cases h : t2 = t
  · subst h
    rw [if_pos rfl]
    cases hg : idxGet idx t2 with
    | none =>
      constructor
      · rintro ⟨s2, hs2, hi⟩
        have hs : s2 = [i] := by simpa using hs2.symm
        subst hs
        have hi2 : i2 = i := by simpa using hi
        exact Or.inl ⟨rfl, hi2⟩
      · rintro (⟨-, rfl⟩ | ⟨s2, hs2, hi⟩)
        · exact ⟨[i2], rfl, by simp⟩
        · cases hs2
    | some s =>
      constructor
      · rintro ⟨s2, hs2, hi⟩
        have hs : setAdd s i = s2 := by simpa using hs2
        subst hs
        rcases mem_setAdd.mp hi with hi | rfl
        · exact Or.inr ⟨s, rfl, hi⟩
        · exact Or.inl ⟨rfl, rfl⟩
      · rintro (⟨-, rfl⟩ | ⟨s2, hs2, hi⟩)
        · exact ⟨setAdd s i2, rfl, mem_setAdd.mpr (Or.inr rfl)⟩
        · have hs : s = s2 := by simpa using hs2
          subst hs
          exact ⟨setAdd s i, rfl, mem_setAdd.mpr (Or.inl hi)⟩
  · rw [if_neg h]
    simp [h]

theorem memIdx_foldToks (toks : List String) (i : Nat) :
    ∀ (idx : Index) (t2 : String) (i2 : Nat),
      memIdx (toks.foldl (fun a tok => idxAdd a tok i) idx) t2 i2 ↔
        (t2 ∈ toks ∧ i2 = i) ∨ memIdx idx t2 i2 := by
  induction toks with
  | nil => simp
  | cons t ts ih =>
    intro idx t2 i2
    rw [List.foldl_cons, ih, memIdx_idxAdd]
    simp only [List.mem_cons]
    tauto

theorem memIdx_addRow (idx : Index) (i : Nat) (r : Company) (t2 : String)
    (i2 : Nat) :
    memIdx (addRow idx i r) t2 i2 ↔
      (t2 ∈ recordTokens r ∧ i2 = i) ∨ memIdx idx t2 i2 := by
  show memIdx (indexedFields.foldl _ idx) t2 i2 ↔ _
  simp only [indexedFields, List.foldl_cons, List.foldl_nil]
  rw [memIdx_foldToks, memIdx_foldToks, memIdx_foldToks]
  simp only [recordTokens, indexedFields, List.map_cons, List.map_nil,
    List.flatten_cons, List.flatten_nil, List.append_nil, List.mem_append]
  tauto

theorem memIdx_buildFrom :
    ∀ (rs : List Company) (i0 : Nat) (idx : Index) (t : String) (j : Nat),
      memIdx (buildFrom i0 rs idx) t j ↔
        memIdx idx t j ∨ ∃ k r, rs[k]? = some r ∧ j = i0 + k ∧ t ∈ recordTokens r := by
  intro rs
  induction rs with
  | nil =>
    intro i0 idx t j
    simp [buildFrom]
  | cons r rs ih =>
    intro i0 idx t j
    rw [show buildFrom i0 (r :: rs) idx = buildFrom (i0 + 1) rs (addRow idx i0 r)
      from rfl]
    rw [ih, memIdx_addRow]
    constructor
    · rintro ((⟨ht, rfl⟩ | hm) | ⟨k, r2, hk, rfl, ht⟩)
      · exact Or.inr ⟨0, r, by simp, by omega, ht⟩
      · exact Or.inl hm
      · exact Or.inr ⟨k + 1, r2, by simpa using hk, by omega, ht⟩
    · rintro (hm | ⟨k, r2, hk, rfl, ht⟩)
      · exact Or.inl (Or.inr hm)
      · cases k with
        | zero =>
          rw [List.getElem?_cons_zero] at hk
          cases hk
          exact Or.inl (Or.inl ⟨ht, by omega⟩)
        | succ k =>
          rw [List.getElem?_cons_succ] at hk
          exact Or.inr ⟨k, r2, hk, by omega, ht⟩

theorem memIdx_nil (t : String) (i : Nat) : ¬ memIdx [] t i := by
  rintro ⟨s, hs, _⟩
  simp [idxGet] at hs

/-- Index membership characterisation: token `t` carries position `i` in
`buildIndex rows` exactly when the record at position `i` has `t` among
the tokens of its indexed fields. -/
theorem memIdx_buildIndex (rows : List Company) (t : String) (i : Nat) :
    memIdx (buildIndex rows) t i ↔
      ∃ r, rows[i]? = some r ∧ t ∈ recordTokens r := by
  rw [buildIndex, memIdx_buildFrom]
  constructor
  · rintro (hm | ⟨k, r, hk, rfl, ht⟩)
    · exact absurd hm (memIdx_nil t i)
    · exact ⟨r, by simpa using hk, ht⟩
  · rintro ⟨r, hr, ht⟩
    exact Or.inr ⟨i, r, hr, by omega, ht⟩

theorem setAdd_ok {s : List Nat} {i : Nat} (hs : s.Pairwise (· < ·))
    (hb : ∀ x ∈ s, x < i + 1) :
    (setAdd s i).Pairwise (· < ·) ∧ setAdd s i ≠ [] ∧
      ∀ x ∈ setAdd s i, x < i + 1 := by
  unfold setAdd
  by_cases h : i ∈ s
  · rw [if_pos h]
    exact ⟨hs, fun hnil => by simp [hnil] at h, hb⟩
  · rw [if_neg h]
    refine ⟨?_, by simp, ?_⟩
    · rw [List.pairwise_append]
      refine ⟨hs, by simp, ?_⟩
      intro x hx y hy
      rw [List.mem_singleton] at hy
      subst hy
      have hxb := hb x hx
      have hne : x ≠ y := fun hxi => h (hxi ▸ hx)
      omega
    · intro x hx
      rcases List.mem_append.mp hx with hx | hx
      · exact hb x hx
      · rw [List.mem_singleton] at hx
        omega

theorem idxAdd_ok {idx : Index} {t : String} {i : Nat}
    (hok : IdxOK (i + 1) idx) : IdxOK (i + 1) (idxAdd idx t i) := by
  induction idx with
  | nil =>
    intro p hp
    simp only [idxAdd, List.mem_singleton] at hp
    subst hp
    exact ⟨by simp, by simp, by simp⟩
  | cons kv rest ih =>
    obtain ⟨k, v⟩ := kv
    show IdxOK _ (if k = t then (k, setAdd v i) :: rest
      else (k, v) :: idxAdd rest t i)
    by_cases hk : k = t
    · rw [if_pos hk]
      intro p hp
      rcases List.mem_cons.mp hp with rfl | hp
      · have h := hok (k, v) (by simp)
        exact setAdd_ok h.1 h.2.2
      · exact hok p (by simp [hp])
    · rw [if_neg hk]
      intro p hp
      rcases List.mem_cons.mp hp with rfl | hp
      · exact hok (k, v) (by simp)
      · exact ih (fun q hq => hok q (by simp [hq])) p hp

theorem foldToks_ok {toks : List String} {i : Nat} :
    ∀ {idx : Index}, IdxOK (i + 1) idx →
      IdxOK (i + 1) (toks.foldl (fun a tok => idxAdd a tok i) idx) := by
  induction toks with
  | nil => intro idx h; exact h
  | cons t ts ih => intro idx h; exact ih (idxAdd_ok h)

theorem addRow_ok {idx : Index} {i : Nat} {r : Company}
    (hok : IdxOK (i + 1) idx) : IdxOK (i + 1) (addRow idx i r) := by
  show IdxOK _ (indexedFields.foldl _ idx)
  simp only [indexedFields, List.foldl_cons, List.foldl_nil]
  exact foldToks_ok (foldToks_ok (foldToks_ok hok))

theorem IdxOK_mono {idx : Index} {b1 b2 : Nat} (h : b1 ≤ b2)
    (hok : IdxOK b1 idx) : IdxOK b2 idx := by
  intro p hp
  obtain ⟨h1, h2, h3⟩ := hok p hp
  exact ⟨h1, h2, fun x hx => Nat.lt_of_lt_of_le (h3 x hx) h⟩

theorem buildFrom_ok :
    ∀ (rs : List Company) (i0 : Nat) (idx : Index), IdxOK i0 idx →
      IdxOK (i0 + rs.length) (buildFrom i0 rs idx) := by
  intro rs
  induction rs with
  | nil =>
    intro i0 idx h
    simpa [buildFrom] using h
  | cons r rs ih =>
    intro i0 idx h
    show IdxOK _ (buildFrom (i0 + 1) rs (addRow idx i0 r))
    have h1 : IdxOK (i0 + 1) (addRow idx i0 r) :=
      addRow_ok (IdxOK_mono (by omega) h)
    have h2 := ih (i0 + 1) (addRow idx i0 r) h1
    exact IdxOK_mono (by simp only [List.length_cons]; omega) h2

/-- The index built from `rows` has strictly increasing, nonempty position
sets bounded by the number of rows. -/
theorem buildIndex_ok (rows : List Company) :
    IdxOK rows.length (buildIndex rows) := by
  have h := buildFrom_ok rows 0 [] (fun p hp => absurd hp (List.not_mem_nil p))
  simpa [buildIndex] using h

theorem idxGet_ok {idx : Index} {bound : Nat} (hok : IdxOK bound idx)
    {t : String} {s : List Nat} (hget : idxGet idx t = some s) :
    s.Pairwise (· < ·) ∧ s ≠ [] ∧ ∀ x ∈ s, x < bound := by
  unfold idxGet at hget
  cases hf : idx.find? (fun p => p.1 == t) with
  | none =>
    rw [hf] at hget
    cases hget
  | some p =>
    rw [hf] at hget
    have hm : p ∈ idx := List.mem_of_find?_eq_some hf
    have hp : p.2 = s := by simpa using hget
    exact hp ▸ hok p hm

theorem interList_mem {a b : List Nat} {x : Nat} :
    x ∈ interList a b ↔ x ∈ a ∧ x ∈ b := by
  unfold interList
  rw [List.mem_filter]
  simp

theorem posMatches_nil (idx : Index) (i : Nat) : posMatches idx [] i = true := rfl

theorem posMatches_cons (idx : Index) (t : String) (ts : List String) (i : Nat) :
    posMatches idx (t :: ts) i =
      ((match idxGet idx t with
        | none => false
        | some s => s.contains i) && posMatches idx ts i) := by
  simp [posMatches]

theorem resolveRest_mem (idx : Index) :
    ∀ (ts : List String) (cur : List Nat) (i : Nat),
      i ∈ resolveRest idx cur ts ↔ i ∈ cur ∧ posMatches idx ts i = true := by
  intro ts
  induction ts with
  | nil =>
    intro cur i
    simp [resolveRest, posMatches_nil]
  | cons t ts ih =>
    intro cur i
    show i ∈ (match idxGet idx t with
      | none => []
      | some s =>
        let c := interList cur s
        if c.isEmpty then [] else resolveRest idx c ts) ↔ _
    rw [posMatches_cons]
    cases hg : idxGet idx t with
    | none => simp
    | some s =>
      simp only []
      by_cases hc : (interList cur s).isEmpty
      · rw [if_pos hc]
        have hnil : interList cur s = [] := by simpa using hc
        constructor
        · intro h
          cases h
        · rintro ⟨hcur, hm⟩
          rw [Bool.and_eq_true] at hm
          have hs : i ∈ s := by
            have := hm.1
            simpa using this
          have : i ∈ interList cur s := interList_mem.mpr ⟨hcur, hs⟩
          rw [hnil] at this
          cases this
      · rw [if_neg hc, ih, interList_mem]
        constructor
        · rintro ⟨⟨hcur, hs⟩, hm⟩
          refine ⟨hcur, ?_⟩
          rw [Bool.and_eq_true]
          exact ⟨by simpa using hs, hm⟩
        · rintro ⟨hcur, hm⟩
          rw [Bool.and_eq_true] at hm
          exact ⟨⟨hcur, by simpa using hm.1⟩, hm.2⟩

/-- Membership characterisation of the query loop: for a nonempty token
list, the resolved positions are exactly the positions present in every
token's set. -/
theorem resolveAll_mem (idx : Index) (t : String) (ts : List String) (i : Nat) :
    i ∈ resolveAll idx (t :: ts) ↔ posMatches idx (t :: ts) i = true := by
  show i ∈ (match idxGet idx t with
    | none => []
    | some s => if s.isEmpty then [] else resolveRest idx s ts) ↔ _
  rw [posMatches_cons]
  cases hg : idxGet idx t with
  | none => simp
  | some s =>
    simp only []
    by_cases hs : s.isEmpty
    · rw [if_pos hs]
      have hnil : s = [] := by simpa using hs
      subst hnil
      simp
    · rw [if_neg hs, resolveRest_mem]
      constructor
      · rintro ⟨hin, hm⟩
        rw [Bool.and_eq_true]
        exact ⟨by simpa using hin, hm⟩
      · intro h
        rw [Bool.and_eq_true] at h
        exact ⟨by simpa using h.1, h.2⟩

theorem resolveRest_missing (idx : Index) :
    ∀ (ts : List String) (cur : List Nat) (t : String), t ∈ ts →
      idxGet idx t = none → resolveRest idx cur ts = [] := by
  intro ts
  induction ts with
  | nil =>
    intro cur t ht
    cases ht
  | cons u us ih =>
    intro cur t ht hg
    show (match idxGet idx u with
      | none => []
      | some s =>
        let c := interList cur s
        if c.isEmpty then [] else resolveRest idx c us) = []
    cases hgu : idxGet idx u with
    | none => rfl
    | some s =>
      simp only []
      rcases List.mem_cons.mp ht with rfl | ht
      · rw [hgu] at hg
        cases hg
      · by_cases hc : (interList cur s).isEmpty
        · rw [if_pos hc]
        · rw [if_neg hc]
          exact ih (interList cur s) t ht hg

/-- A token absent from the index forces the empty position list. -/
theorem resolveAll_missing (idx : Index) (toks : List String) (t : String)
    (ht : t ∈ toks) (hg : idxGet idx t = none) : resolveAll idx toks = [] := by
  cases toks with
  | nil => rfl
  | cons u us =>
    show (match idxGet idx u with
      | none => []
      | some s => if s.isEmpty then [] else resolveRest idx s us) = []
    cases hgu : idxGet idx u with
    | none => rfl
    | some s =>
      simp only []
      rcases List.mem_cons.mp ht with rfl | ht
      · rw [hgu] at hg
        cases hg
      · by_cases hs : s.isEmpty
        · rw [if_pos hs]
        · rw [if_neg hs]
          exact resolveRest_missing idx us s t ht hg

theorem resolveRest_sublist (idx : Index) :
    ∀ (ts : List String) (cur : List Nat), (resolveRest idx cur ts).Sublist cur := by
  intro ts
  induction ts with
  | nil =>
    intro cur
    exact List.Sublist.refl cur
  | cons t ts ih =>
    intro cur
    show (match idxGet idx t with
      | none => []
      | some s =>
        let c := interList cur s
        if c.isEmpty then [] else resolveRest idx c ts).Sublist cur
    cases idxGet idx t with
    | none => exact List.nil_sublist cur
    | some s =>
      simp only []
      by_cases hc : (interList cur s).isEmpty
      · rw [if_pos hc]
        exact List.nil_sublist cur
      · rw [if_neg hc]
        exact (ih (interList cur s)).trans (List.filter_sublist cur)

/-- The resolved position list is empty or a sublist of some token's
position set. -/
theorem resolveAll_cases (idx : Index) (toks : List String) :
    resolveAll idx toks = [] ∨
      ∃ t s, idxGet idx t = some s ∧ (resolveAll idx toks).Sublist s := by
  cases toks with
  | nil => exact Or.inl rfl
  | cons t ts =>
    show (match idxGet idx t with
      | none => []
      | some s => if s.isEmpty then [] else resolveRest idx s ts) = [] ∨ _
    cases hg : idxGet idx t with
    | none => exact Or.inl rfl
    | some s =>
      simp only []
      by_cases hs : s.isEmpty
      · rw [if_pos hs]
        exact Or.inl rfl
      · rw [if_neg hs]
        refine Or.inr ⟨t, s, hg, ?_⟩
        show (match idxGet idx t with
          | none => []
          | some s => if s.isEmpty then [] else resolveRest idx s ts).Sublist s
        rw [hg]
        simp only []
        rw [if_neg hs]
        exact resolveRest_sublist idx ts s

/-- Against a built index, the resolved positions are strictly increasing
and in range. -/
theorem resolveAll_buildIndex_ok (rows : List Company) (toks : List String) :
    (resolveAll (buildIndex rows) toks).Pairwise (· < ·) ∧
      ∀ i ∈ resolveAll (buildIndex rows) toks, i < rows.length := by
  rcases resolveAll_cases (buildIndex rows) toks with h | ⟨t, s, hg, hsub⟩
  · rw [h]
    exact ⟨List.Pairwise.nil, by simp⟩
  · have hok := idxGet_ok (buildIndex_ok rows) hg
    exact ⟨List.Pairwise.sublist hsub hok.1,
      fun i hi => hok.2.2 i (hsub.subset hi)⟩

theorem trimmed_ne_nil_of_tokens {q : String} (h : queryTokens q ≠ []) :
    ((trimChars q.data).map Char.toLower).isEmpty = false := by
  cases hl : (trimChars q.data).map Char.toLower with
  | nil =>
    exfalso
    apply h
    unfold queryTokens wsTokens
    rw [hl]
    rfl
  | cons c cs => rfl

/-- On a query with at least one token, `queryIndex` takes the resolution
branch. -/
theorem queryIndex_eq {q : String} (rows : List Company) (idx : Index)
    (h : queryTokens q ≠ []) :
    queryIndex q rows idx =
      ((resolveAll idx (queryTokens q)).take 1000).map
        (fun i => rows.getD i default) := by
  show (if ((trimChars q.data).map Char.toLower).isEmpty then rows
    else ((resolveAll idx (queryTokens q)).take 1000).map
      (fun i => rows.getD i default)) = _
  rw [trimmed_ne_nil_of_tokens h, if_neg Bool.false_ne_true]

/-- On a query that trims to nothing, `queryIndex` returns all rows. -/
theorem queryIndex_empty (q : String) (rows : List Company) (idx : Index)
    (h : trimChars q.data = []) : queryIndex q rows idx = rows := by
  show (if ((trimChars q.data).map Char.toLower).isEmpty then rows else _) = rows
  rw [h]
  rfl

theorem getD_mem {rows : List Company} {i : Nat} (h : i < rows.length) :
    rows.getD i default ∈ rows := by
  rw [List.getD_eq_getElem?_getD, List.getElem?_eq_getElem h, Option.getD_some]
  exact List.getElem_mem h

theorem notSpace_eq_isTokenChar_of {c : Char}
    (h : isTokenChar c = true ∨ isSpaceChar c = true) :
    (!isSpaceChar c) = isTokenChar c := by
  rcases h with h | h
  · rw [h, not_isSpaceChar_of_isTokenChar h]
    decide
  · rw [h]
    have hf : isTokenChar c = false := by
      rw [← Bool.not_eq_true, isTokenChar_iff]
      rw [isSpaceChar_iff] at h
      omega
    rw [hf]
    rfl

theorem trimChars_map_toLower (l : List Char) :
    (trimChars l).map Char.toLower = trimChars (l.map Char.toLower) := by
  have hdw : ∀ m : List Char, (m.map Char.toLower).dropWhile isSpaceChar =
      (m.dropWhile isSpaceChar).map Char.toLower := by
    intro m
    rw [List.dropWhile_map]
    have hfun : (isSpaceChar ∘ Char.toLower) = isSpaceChar :=
      funext isSpaceChar_toLower
    rw [hfun]
  have hrev : ∀ m : List Char, (m.map Char.toLower).reverse =
      m.reverse.map Char.toLower := by
    intro m
    simp
  unfold trimChars
  rw [hdw l, hrev (l.dropWhile isSpaceChar),
    hdw (l.dropWhile isSpaceChar).reverse,
    hrev ((l.dropWhile isSpaceChar).reverse.dropWhile isSpaceChar)]

/-- Claim C1 counterexample: on the query text `"alpine-watch"` the token
list used by query resolution is `["alpine-watch"]` (split on whitespace
only), while the build-time tokenizer produces `["alpine", "watch"]`, so
the two token sequences differ on a hyphenated query word. -/
theorem C1_counterexample :
    queryTokens "alpine-watch" = ["alpine-watch"] ∧
      tokenize "alpine-watch" = ["alpine", "watch"] ∧
      queryTokens "alpine-watch" ≠ tokenize "alpine-watch" := by
  refine ⟨by decide, by decide, by decide⟩

/-- Claim C1 (amended): the query tokens are obtained by trimming,
lower-casing and splitting on maximal whitespace runs, not by the
build-time tokenizer; the two token sequences agree exactly on query texts
all of whose characters are (after lower-casing) alphanumeric or
whitespace, i.e. as long as no query word contains punctuation. -/
theorem C1_query_tokens (q : String)
    (h : ∀ c ∈ q.data, isTokenChar (Char.toLower c) = true ∨
      isSpaceChar (Char.toLower c) = true) :
    queryTokens q = tokenize q := by
  unfold queryTokens tokenize wsTokens
  congr 1
  rw [trimChars_map_toLower, tokensP_trimChars]
  apply tokensP_congr (q.data.map Char.toLower).length _ Nat.le.refl
  intro c hc
  rw [List.mem_map] at hc
  obtain ⟨c0, hc0, rfl⟩ := hc
  exact notSpace_eq_isTokenChar_of (h c0 hc0)

/-- Witness for the amended claim C1 at a concrete punctuation-free
query. -/
theorem C1_witness : queryTokens " Alpine Watch AG " = tokenize " Alpine Watch AG " :=
  C1_query_tokens " Alpine Watch AG " (by decide)

/-- Claim C3: a token `t` is a key of `buildIndex rows` with position `i`
in its set iff `t` occurs among the tokens of at least one indexed field
(name, city, type; absent fields tokenize as the empty string) of the
record at position `i`. -/
theorem C3_index_membership (rows : List Company) (t : String) (i : Nat) :
    (∃ s, idxGet (buildIndex rows) t = some s ∧ i ∈ s) ↔
      ∃ r, rows[i]? = some r ∧ t ∈ recordTokens r :=
  memIdx_buildIndex rows t i

theorem map_eq_self_of_forall {α : Type} {f : α → α} :
    ∀ l : List α, (∀ a ∈ l, f a = a) → l.map f = l := by
  intro l
  induction l with
  | nil => intro _; rfl
  | cons a as ih =>
    intro h
    rw [List.map_cons, h a (by simp), ih (fun b hb => h b (by simp [hb]))]

theorem map_toLower_joinSpaceChars :
    ∀ ts : List (List Char), (joinSpaceChars ts).map Char.toLower =
      joinSpaceChars (ts.map (fun t => t.map Char.toLower)) := by
  intro ts
  induction ts with
  | nil => rfl
  | cons t ts ih =>
    cases ts with
    | nil => rfl
    | cons t2 rest =>
      show (t ++ ' ' :: joinSpaceChars (t2 :: rest)).map Char.toLower = _
      rw [List.map_append, List.map_cons, ih,
        show Char.toLower ' ' = ' ' from by decide]
      rfl

/-- Claim C8: re-tokenizing the space-join of the tokenizer's output
yields the same token sequence. -/
theorem C8_tokenize_idempotent (x : String) :
    tokenize (joinSpace (tokenize x)) = tokenize x := by
  unfold tokenize joinSpace
  congr 1
  have hdata :
      (((tokensP isTokenChar (x.data.map Char.toLower)).map
        (fun t => String.mk t)).map String.data) =
      tokensP isTokenChar (x.data.map Char.toLower) := by
    rw [List.map_map]
    exact map_eq_self_of_forall _ (fun t _ => rfl)
  rw [hdata]
  show tokensP isTokenChar
      ((joinSpaceChars (tokensP isTokenChar (x.data.map Char.toLower))).map
        Char.toLower) = _
  rw [map_toLower_joinSpaceChars]
  have hts : (tokensP isTokenChar (x.data.map Char.toLower)).map
      (fun t => t.map Char.toLower) =
      tokensP isTokenChar (x.data.map Char.toLower) := by
    apply map_eq_self_of_forall
    intro t ht
    apply map_eq_self_of_forall
    intro c hc
    have hcl := (tokensP_mem ht).2 c hc
    rcases List.mem_map.mp hcl.2 with ⟨c0, _, rfl⟩
    exact toLower_toLower c0
  rw [hts]
  apply tokensP_joinSpace (by decide)
  intro t ht
  exact ⟨(tokensP_mem ht).1, fun c hc => ((tokensP_mem ht).2 c hc).1⟩

/-- Claim C2 counterexample: the punctuation-only query `"---"` normalizes
to zero tokens under the build tokenizer, but it survives `trim()`, is
resolved as the single query token `"---"` (never an index key), and
returns the empty result instead of all records. -/
theorem C2_counterexample :
    tokenize "---" = [] ∧
      queryIndex "---" exRows (buildIndex exRows) = [] ∧
      exRows ≠ [] := by
  refine ⟨by decide, by decide, by decide⟩

/-- Claim C2 (amended): a query whose text trims to the empty string
(empty or whitespace-only) returns all records of the collection, in their
original order, with no cap applied. -/
theorem C2_empty_query (q : String) (rows : List Company) (idx : Index)
    (h : trimChars q.data = []) :
    queryIndex q rows idx = rows ∧
      (queryIndex q rows idx).length = rows.length := by
  have he := queryIndex_empty q rows idx h
  exact ⟨he, by rw [he]⟩

/-- Witness for the amended claim C2 on a whitespace-only query. -/
theorem C2_witness :
    queryIndex "  " exRows (buildIndex exRows) = exRows ∧
      (queryIndex "  " exRows (buildIndex exRows)).length = exRows.length :=
  C2_empty_query "  " exRows (buildIndex exRows) (by decide)

/-- Claim C4: with at least one query token, a position is resolved iff it
lies in the position set of every query token; a token absent from the
index, or an empty running intersection, forces the empty result. -/
theorem C4_conjunctive_query (q : String) (rows : List Company)
    (h : queryTokens q ≠ []) :
    (∀ i, i ∈ resolveAll (buildIndex rows) (queryTokens q) ↔
        posMatches (buildIndex rows) (queryTokens q) i = true) ∧
      ((∃ t ∈ queryTokens q, idxGet (buildIndex rows) t = none) →
        queryIndex q rows (buildIndex rows) = []) ∧
      (resolveAll (buildIndex rows) (queryTokens q) = [] →
        queryIndex q rows (buildIndex rows) = []) := by
  obtain ⟨t, ts, hts⟩ : ∃ t ts, queryTokens q = t :: ts := by
    cases hq : queryTokens q with
    | nil => exact absurd hq h
    | cons t ts => exact ⟨t, ts, rfl⟩
  refine ⟨?_, ?_, ?_⟩
  · intro i
    rw [hts]
    exact resolveAll_mem (buildIndex rows) t ts i
  · rintro ⟨u, hu, hgu⟩
    rw [queryIndex_eq rows (buildIndex rows) h,
      resolveAll_missing (buildIndex rows) (queryTokens q) u hu hgu]
    rfl
  · intro hnil
    rw [queryIndex_eq rows (buildIndex rows) h, hnil]
    rfl

/-- Witness for claim C4: conjunctive match on the example data, and empty
result when one token is missing from the index. -/
theorem C4_witness :
    (0 ∈ resolveAll (buildIndex exRows) (queryTokens "alpine zurich") ↔
      posMatches (buildIndex exRows) (queryTokens "alpine zurich") 0 = true) ∧
      queryIndex "nomatch alpine" exRows (buildIndex exRows) = [] :=
  ⟨(C4_conjunctive_query "alpine zurich" exRows (by decide)).1 0,
    (C4_conjunctive_query "nomatch alpine" exRows (by decide)).2.1
      ⟨"nomatch", by decide, by decide⟩⟩

/-- Claim C5: with at least one query token, the resolved positions are
strictly ascending and are exactly the matching positions; the returned
sequence consists of the records at the first 1000 of them and never has
more than 1000 entries. -/
theorem C5_result_order_and_cap (q : String) (rows : List Company)
    (h : queryTokens q ≠ []) :
    (resolveAll (buildIndex rows) (queryTokens q)).Pairwise (· < ·) ∧
      (∀ i, i ∈ resolveAll (buildIndex rows) (queryTokens q) ↔
        posMatches (buildIndex rows) (queryTokens q) i = true) ∧
      queryIndex q rows (buildIndex rows) =
        ((resolveAll (buildIndex rows) (queryTokens q)).take 1000).map
          (fun i => rows.getD i default) ∧
      (queryIndex q rows (buildIndex rows)).length ≤ 1000 := by
  obtain ⟨t, ts, hts⟩ : ∃ t ts, queryTokens q = t :: ts := by
    cases hq : queryTokens q with
    | nil => exact absurd hq h
    | cons t ts => exact ⟨t, ts, rfl⟩
  refine ⟨(resolveAll_buildIndex_ok rows (queryTokens q)).1, ?_,
    queryIndex_eq rows (buildIndex rows) h, ?_⟩
  · intro i
    rw [hts]
    exact resolveAll_mem (buildIndex rows) t ts i
  · rw [queryIndex_eq rows (buildIndex rows) h, List.length_map]
    exact List.length_take_le 1000 _

/-- Witness for claim C5 at the example query `"alpine"`. -/
theorem C5_witness :
    queryIndex "alpine" exRows (buildIndex exRows) =
      ((resolveAll (buildIndex exRows) (queryTokens "alpine")).take 1000).map
        (fun i => exRows.getD i default) :=
  (C5_result_order_and_cap "alpine" exRows (by decide)).2.2.1

/-- Claim C7: a token that occurs in no indexed field of any record (for
instance one that occurs only in the address field) is never a key of the
built index and forces the empty result on every query that contains
it. -/
theorem C7_unindexed_fields (rows : List Company) (t : String)
    (h : ∀ r ∈ rows, t ∉ recordTokens r) :
    idxGet (buildIndex rows) t = none ∧
      ∀ q, t ∈ queryTokens q → queryIndex q rows (buildIndex rows) = [] := by
  have hkey : idxGet (buildIndex rows) t = none := by
    cases hg : idxGet (buildIndex rows) t with
    | none => rfl
    | some s =>
      exfalso
      have hok := idxGet_ok (buildIndex_ok rows) hg
      obtain ⟨i, hi⟩ : ∃ i, i ∈ s := by
        cases s with
        | nil => exact absurd rfl hok.2.1
        | cons a as => exact ⟨a, by simp⟩
      obtain ⟨r, hr, ht⟩ := (memIdx_buildIndex rows t i).mp ⟨s, hg, hi⟩
      have hlt : i < rows.length := hok.2.2 i hi
      have hgm : rows[i]? = some rows[i] := List.getElem?_eq_getElem hlt
      rw [hr] at hgm
      have hre : r = rows[i] := by simpa using hgm
      refine h r ?_ ht
      rw [hre]
      exact List.getElem_mem hlt
  refine ⟨hkey, ?_⟩
  intro q hq
  have hne : queryTokens q ≠ [] := fun hnil => by
    rw [hnil] at hq
    cases hq
  rw [queryIndex_eq rows (buildIndex rows) hne,
    resolveAll_missing (buildIndex rows) (queryTokens q) t hq hkey]
  rfl

/-- Witness for claim C7: the address-only token is no key and its query
finds nothing. -/
theorem C7_witness :
    idxGet (buildIndex adRows) "bahnhofstrasse" = none ∧
      queryIndex "Bahnhofstrasse" adRows (buildIndex adRows) = [] := by
  have h := C7_unindexed_fields adRows "bahnhofstrasse" (by decide)
  exact ⟨h.1, h.2 "Bahnhofstrasse" (by decide)⟩

/-- Claim C9: build and query are total Lean functions (they reject no
input); degenerate inputs give the documented well-defined results: the
empty collection builds the empty index and every query on it returns the
empty result, and a record with all indexed fields absent (whatever its
address field holds) contributes nothing to the index. -/
theorem C9_totality :
    buildIndex ([] : List Company) = [] ∧
      (∀ q : String, queryIndex q [] (buildIndex []) = []) ∧
      (∀ a : Option String, buildIndex [⟨none, none, none, a⟩] = []) := by
  refine ⟨rfl, ?_, fun a => rfl⟩
  intro q
  unfold queryIndex
  split
  · rfl
  · cases hq : queryTokens q with
    | nil => rfl
    | cons t ts =>
      rw [resolveAll_missing (buildIndex []) (t :: ts) t (by simp) rfl]
      rfl

/-- Claim C10: every position stored in any set of the built index is a
valid index into the collection, and every record returned by a query
against the built index is a record of the collection. -/
theorem C10_positions_in_range (rows : List Company) :
    (∀ t s, idxGet (buildIndex rows) t = some s → ∀ i ∈ s, i < rows.length) ∧
      (∀ q r, r ∈ queryIndex q rows (buildIndex rows) → r ∈ rows) := by
  refine ⟨?_, ?_⟩
  · intro t s hg i hi
    exact (idxGet_ok (buildIndex_ok rows) hg).2.2 i hi
  · intro q r hr
    unfold queryIndex at hr
    split at hr
    · exact hr
    · rcases List.mem_map.mp hr with ⟨i, hi, rfl⟩
      have hmem : i ∈ resolveAll (buildIndex rows) (queryTokens q) :=
        List.take_subset 1000 _ hi
      exact getD_mem ((resolveAll_buildIndex_ok rows (queryTokens q)).2 i hmem)

/-- Witness for claim C10 on the example data. -/
theorem C10_witness : (0 : Nat) < exRows.length ∧ exR0 ∈ exRows := by
  refine ⟨(C10_positions_in_range exRows).1 "alpine" [0, 2] (by decide) 0
    (by decide), ?_⟩
  exact (C10_positions_in_range exRows).2 "alpine" exR0 (by decide)

theorem sorted_eq_of_mem_iff :
    ∀ (l1 l2 : List Nat), l1.Pairwise (· < ·) → l2.Pairwise (· < ·) →
      (∀ x, x ∈ l1 ↔ x ∈ l2) → l1 = l2 := by
  intro l1
  induction l1 with
  | nil =>
    intro l2 _ _ hm
    cases l2 with
    | nil => rfl
    | cons b bs => exact absurd ((hm b).mpr (by simp)) (by simp)
  | cons a as ih =>
    intro l2 h1 h2 hm
    cases l2 with
    | nil => exact absurd ((hm a).mp (by simp)) (by simp)
    | cons b bs =>
      rw [List.pairwise_cons] at h1 h2
      have hab : a = b := by
        rcases List.mem_cons.mp ((hm a).mp (by simp)) with h | hab
        · exact h
        · have hba : b < a := h2.1 a hab
          rcases List.mem_cons.mp ((hm b).mpr (by simp)) with h | hba2
          · exact h.symm
          · have hlt : a < b := h1.1 b hba2
            omega
      subst hab
      congr 1
      apply ih bs h1.2 h2.2
      intro x
      constructor
      · intro hx
        have hax : a < x := h1.1 x hx
        rcases List.mem_cons.mp ((hm x).mp (by simp [hx])) with h | h
        · omega
        · exact h
      · intro hx
        have hax : a < x := h2.1 x hx
        rcases List.mem_cons.mp ((hm x).mpr (by simp [hx])) with h | h
        · omega
        · exact h

/-- Trimming never changes the query tokens, so they are the
whitespace-split of the lower-cased text. -/
theorem queryTokens_eq_lower (q : String) :
    queryTokens q =
      (tokensP (fun c => !isSpaceChar c) (q.data.map Char.toLower)).map
        (fun t => String.mk t) := by
  unfold queryTokens wsTokens
  rw [trimChars_map_toLower, tokensP_trimChars]

theorem lower_all_pos {t : String} (h : IsTok t) :
    t.data.map Char.toLower ≠ [] ∧
      ∀ c ∈ t.data.map Char.toLower, (!isSpaceChar c) = true := by
  constructor
  · simpa using h.1
  · intro c hc
    rcases List.mem_map.mp hc with ⟨c0, hc0, rfl⟩
    have ht := h.2 c0 hc0
    rw [← isTokenChar_toLower] at ht
    rw [not_isSpaceChar_of_isTokenChar ht]
    rfl

theorem queryTokens_single {t : String} (h : IsTok t) :
    queryTokens t = [String.mk (t.data.map Char.toLower)] := by
  rw [queryTokens_eq_lower,
    tokensP_of_all_pos _ (lower_all_pos h).1 (lower_all_pos h).2]
  rfl

theorem queryTokens_pair {t1 t2 : String} (h1 : IsTok t1) (h2 : IsTok t2) :
    queryTokens (t1 ++ " " ++ t2) =
      [String.mk (t1.data.map Char.toLower),
        String.mk (t2.data.map Char.toLower)] := by
  rw [queryTokens_eq_lower]
  have hdata : (t1 ++ " " ++ t2).data = t1.data ++ ' ' :: t2.data := by
    rw [String.data_append, String.data_append,
      show (" " : String).data = [' '] from rfl, List.append_assoc]
    rfl
  rw [hdata, List.map_append, List.map_cons,
    show Char.toLower ' ' = ' ' from by decide,
    tokensP_append_sep (by decide),
    tokensP_of_all_pos _ (lower_all_pos h1).1 (lower_all_pos h1).2,
    tokensP_of_all_pos _ (lower_all_pos h2).1 (lower_all_pos h2).2]
  rfl

theorem resolveAll_single (idx : Index) (u : String) :
    resolveAll idx [u] = (idxGet idx u).getD [] := by
  show (match idxGet idx u with
    | none => []
    | some s => if s.isEmpty then [] else resolveRest idx s []) = _
  cases hg : idxGet idx u with
  | none => rfl
  | some s =>
    simp only []
    by_cases hs : s.isEmpty
    · rw [if_pos hs]
      have hnil : s = [] := by simpa using hs
      rw [hnil]
      rfl
    · rw [if_neg hs]
      rfl

theorem resolveAll_pair (idx : Index) (u v : String) {s1 s2 : List Nat}
    (h1 : idxGet idx u = some s1) (h2 : idxGet idx v = some s2)
    (hne : s1 ≠ []) :
    resolveAll idx [u, v] = interList s1 s2 := by
  show (match idxGet idx u with
    | none => []
    | some s => if s.isEmpty then [] else resolveRest idx s [v]) = _
  rw [h1]
  simp only []
  rw [if_neg (by simpa using hne)]
  show (match idxGet idx v with
    | none => []
    | some s =>
      let c := interList s1 s
      if c.isEmpty then [] else resolveRest idx c []) = _
  rw [h2]
  simp only []
  by_cases hc : (interList s1 s2).isEmpty
  · rw [if_pos hc]
    have hnil : interList s1 s2 = [] := by simpa using hc
    rw [hnil]
  · rw [if_neg hc]
    rfl

/-- Claim C6 (amended): for genuine tokens `t1`, `t2`, the two-token query
resolves to positions lying in both single-token resolutions
(unconditionally at the position level), and every returned record of the
two-token query is returned by both single-token queries provided each
single-token query has at most 1000 matching positions (beyond 1000 the
result cap can drop matches from a single-token result). -/
theorem C6_intersection (t1 t2 : String) (rows : List Company) (idx : Index)
    (h1 : IsTok t1) (h2 : IsTok t2)
    (hc1 : (resolveAll idx (queryTokens t1)).length ≤ 1000)
    (hc2 : (resolveAll idx (queryTokens t2)).length ≤ 1000) :
    (∀ i, i ∈ resolveAll idx (queryTokens (t1 ++ " " ++ t2)) →
        i ∈ resolveAll idx (queryTokens t1) ∧
          i ∈ resolveAll idx (queryTokens t2)) ∧
      ∀ r, r ∈ queryIndex (t1 ++ " " ++ t2) rows idx →
        r ∈ queryIndex t1 rows idx ∧ r ∈ queryIndex t2 rows idx := by
  have hqp := queryTokens_pair h1 h2
  have hq1 := queryTokens_single h1
  have hq2 := queryTokens_single h2
  have hne_p : queryTokens (t1 ++ " " ++ t2) ≠ [] := by
    rw [hqp]
    simp
  have hne_1 : queryTokens t1 ≠ [] := by
    rw [hq1]
    simp
  have hne_2 : queryTokens t2 ≠ [] := by
    rw [hq2]
    simp
  have hposm : ∀ i, i ∈ resolveAll idx (queryTokens (t1 ++ " " ++ t2)) →
      ∃ s1 s2, idxGet idx (String.mk (t1.data.map Char.toLower)) = some s1 ∧
        idxGet idx (String.mk (t2.data.map Char.toLower)) = some s2 ∧
        i ∈ s1 ∧ i ∈ s2 := by
    intro i hi
    rw [hqp] at hi
    have hm := (resolveAll_mem idx _ _ i).mp hi
    rw [posMatches_cons, Bool.and_eq_true] at hm
    have hm1 := hm.1
    have hm2 := hm.2
    rw [posMatches_cons, posMatches_nil, Bool.and_true] at hm2
    cases hg1 : idxGet idx (String.mk (t1.data.map Char.toLower)) with
    | none =>
      rw [hg1] at hm1
      cases hm1
    | some s1 =>
      rw [hg1] at hm1
      cases hg2 : idxGet idx (String.mk (t2.data.map Char.toLower)) with
      | none =>
        rw [hg2] at hm2
        cases hm2
      | some s2 =>
        rw [hg2] at hm2
        exact ⟨s1, s2, rfl, rfl, by simpa using hm1, by simpa using hm2⟩
  constructor
  · intro i hi
    obtain ⟨s1, s2, hg1, hg2, his1, his2⟩ := hposm i hi
    constructor
    · rw [hq1, resolveAll_single, hg1, Option.getD_some]
      exact his1
    · rw [hq2, resolveAll_single, hg2, Option.getD_some]
      exact his2
  · intro r hr
    rw [queryIndex_eq rows idx hne_p] at hr
    rcases List.mem_map.mp hr with ⟨i, hi, rfl⟩
    have hi2 : i ∈ resolveAll idx (queryTokens (t1 ++ " " ++ t2)) :=
      List.take_subset 1000 _ hi
    obtain ⟨s1, s2, hg1, hg2, his1, his2⟩ := hposm i hi2
    have hr1 : resolveAll idx (queryTokens t1) = s1 := by
      rw [hq1, resolveAll_single, hg1, Option.getD_some]
    have hr2 : resolveAll idx (queryTokens t2) = s2 := by
      rw [hq2, resolveAll_single, hg2, Option.getD_some]
    constructor
    · rw [queryIndex_eq rows idx hne_1, hr1,
        List.take_of_length_le (by rw [← hr1]; exact hc1)]
      exact List.mem_map.mpr ⟨i, his1, rfl⟩
    · rw [queryIndex_eq rows idx hne_2, hr2,
        List.take_of_length_le (by rw [← hr2]; exact hc2)]
      exact List.mem_map.mpr ⟨i, his2, rfl⟩

/-- Witness for the amended claim C6 on the example data. -/
theorem C6_witness :
    exR0 ∈ queryIndex "alpine" exRows (buildIndex exRows) ∧
      exR0 ∈ queryIndex "zurich" exRows (buildIndex exRows) := by
  have h := C6_intersection "alpine" "zurich" exRows (buildIndex exRows)
    ⟨by decide, by decide⟩ ⟨by decide, by decide⟩ (by decide) (by decide)
  exact h.2 exR0 (by decide)

theorem cxRows_length : cxRows.length = 1001 := by
  unfold cxRows
  rw [List.length_append, List.length_replicate]
  rfl

theorem cxRows_get_lt {i : Nat} (h : i < 1000) : cxRows[i]? = some cxA := by
  unfold cxRows
  rw [List.getElem?_append_left (by rw [List.length_replicate]; exact h)]
  exact List.getElem?_replicate_of_lt h

theorem cxRows_get_1000 : cxRows[1000]? = some cxB := by
  unfold cxRows
  rw [List.getElem?_append_right (by rw [List.length_replicate])]
  rw [List.length_replicate]
  rfl

theorem getD_eq_of_get? {rows : List Company} {i : Nat} {x : Company}
    (h : rows[i]? = some x) : rows.getD i default = x := by
  rw [List.getD_eq_getElem?_getD, h]
  rfl

theorem cx_sets :
    ∃ sa sb, idxGet (buildIndex cxRows) "aaa" = some sa ∧
      idxGet (buildIndex cxRows) "bbb" = some sb ∧
      sa = List.range 1001 ∧ sb = [1000] := by
  obtain ⟨sa, hga, h0a⟩ : memIdx (buildIndex cxRows) "aaa" 0 :=
    (memIdx_buildIndex cxRows "aaa" 0).mpr
      ⟨cxA, cxRows_get_lt (by omega), by decide⟩
  obtain ⟨sb, hgb, h1b⟩ : memIdx (buildIndex cxRows) "bbb" 1000 :=
    (memIdx_buildIndex cxRows "bbb" 1000).mpr
      ⟨cxB, cxRows_get_1000, by decide⟩
  refine ⟨sa, sb, hga, hgb, ?_, ?_⟩
  · apply sorted_eq_of_mem_iff sa (List.range 1001)
      (idxGet_ok (buildIndex_ok cxRows) hga).1 (List.sorted_lt_range 1001)
    intro x
    rw [List.mem_range]
    constructor
    · intro hx
      have hb := (idxGet_ok (buildIndex_ok cxRows) hga).2.2 x hx
      rwa [cxRows_length] at hb
    · intro hx
      have hmx : memIdx (buildIndex cxRows) "aaa" x := by
        apply (memIdx_buildIndex cxRows "aaa" x).mpr
        by_cases hlt : x < 1000
        · exact ⟨cxA, cxRows_get_lt hlt, by decide⟩
        · have hx1000 : x = 1000 := by omega
          subst hx1000
          exact ⟨cxB, cxRows_get_1000, by decide⟩
      obtain ⟨s2, hg2, hxs⟩ := hmx
      rw [hga] at hg2
      have hss : sa = s2 := by simpa using hg2
      rw [hss]
      exact hxs
  · apply sorted_eq_of_mem_iff sb [1000]
      (idxGet_ok (buildIndex_ok cxRows) hgb).1 (by simp)
    intro x
    rw [List.mem_singleton]
    constructor
    · intro hx
      obtain ⟨r, hr, ht⟩ := (memIdx_buildIndex cxRows "bbb" x).mp ⟨sb, hgb, hx⟩
      have hb := (idxGet_ok (buildIndex_ok cxRows) hgb).2.2 x hx
      rw [cxRows_length] at hb
      by_cases hlt : x < 1000
      · exfalso
        rw [cxRows_get_lt hlt] at hr
        have hra : r = cxA := by simpa using hr.symm
        rw [hra] at ht
        exact absurd ht (by decide)
      · omega
    · rintro rfl
      exact h1b

/-- Claim C6 counterexample: in a collection of 1001 records all matching
the token `aaa` and whose last record alone also matches `bbb`, the record
at position 1000 is returned by the query `aaa bbb` but not by the query
`aaa`, because the single-token result is capped to the first 1000 of its
1001 matches.  So the returned-record set of a two-token query need not be
a subset of the single-token results. -/
theorem C6_counterexample :
    cxB ∈ queryIndex ("aaa" ++ " " ++ "bbb") cxRows (buildIndex cxRows) ∧
      cxB ∉ queryIndex "aaa" cxRows (buildIndex cxRows) := by
  obtain ⟨sa, sb, hga, hgb, hsa, hsb⟩ := cx_sets
  rw [hsa] at hga
  rw [hsb] at hgb
  have hq_pair : queryTokens ("aaa" ++ " " ++ "bbb") = ["aaa", "bbb"] := by
    decide
  have hq_single : queryTokens "aaa" = ["aaa"] := by decide
  constructor
  · rw [queryIndex_eq cxRows (buildIndex cxRows) (by rw [hq_pair]; simp),
      hq_pair, resolveAll_pair (buildIndex cxRows) "aaa" "bbb" hga hgb
        (by simp [List.range_eq_nil])]
    have hint : interList (List.range 1001) [1000] = [1000] := by
      apply sorted_eq_of_mem_iff (interList (List.range 1001) [1000]) [1000]
        (List.Pairwise.filter _ (List.sorted_lt_range 1001)) (by simp)
      intro x
      rw [interList_mem, List.mem_range, List.mem_singleton]
      constructor
      · rintro ⟨_, hx⟩
        exact hx
      · rintro rfl
        exact ⟨by omega, rfl⟩
    rw [hint, List.take_of_length_le (by simp), List.map_cons, List.map_nil,
      getD_eq_of_get? cxRows_get_1000]
    simp
  · rw [queryIndex_eq cxRows (buildIndex cxRows) (by rw [hq_single]; simp),
      hq_single, resolveAll_single, hga, Option.getD_some]
    have htake : (List.range 1001).take 1000 = List.range 1000 := by
      rw [show (1001 : Nat) = Nat.succ 1000 from rfl, List.range_succ,
        List.take_left' (List.length_range 1000)]
    rw [htake]
    intro hmem
    rcases List.mem_map.mp hmem with ⟨i, hi, heq⟩
    rw [List.mem_range] at hi
    rw [getD_eq_of_get? (cxRows_get_lt hi)] at heq
    exact absurd heq (by decide)

end SwissRegister
